import Mathlib

/-!
Shallow embedding of the core of the commit-split tool: the git-status
parser (src/commit/gitStatusParser.ts), the AI-output validator and the
grouping repair step (src/commit/commitGenerator.ts), together with the
data model (src/config/types.ts).

Strings are modelled as Lean `String`/`List Char`; the JavaScript regex
`^\s*([MARDU]{1,2}|\?\?)\s{1,2}(.+)$` is embedded as a deterministic
matcher with the engine's greedy/backtracking semantics spelled out.
Asynchronous effects are modelled by an explicit diff oracle
`String → Option String` plus a log of the diff-lookup requests made, and
`process.exit(1)` by an `Except Nat` error value.
-/

namespace CommitSplit

/-- FileState enum from src/config/types.ts: M=1, A=2, R=4, D=8,
kept as a Nat bitset. -/
def FileStateM : Nat := 1

/-- ADDED bit of the FileState enum. -/
def FileStateA : Nat := 2

/-- RENAMED bit of the FileState enum. -/
def FileStateR : Nat := 4

/-- DELETED bit of the FileState enum. -/
def FileStateD : Nat := 8

/-- FileChange record from src/config/types.ts (`diff?` becomes an
`Option`). -/
structure FileChange where
  path : String
  state : Nat
  diff : Option String
deriving Repr, DecidableEq

/-- AICommit record from src/config/types.ts. -/
structure AICommit where
  title : String
  changes : List String
deriving Repr, DecidableEq

/-- GeneratorValidationResult record from src/config/types.ts. -/
structure GeneratorValidationResult where
  valid : Bool
  duplicateFiles : List String
  missingFiles : List String
  invalidFiles : List String
deriving Repr, DecidableEq

/-- The character class `\s` of JavaScript regular expressions (also the
set trimmed by `String.prototype.trim`): space, tab, LF, VT, FF, CR, and
the Unicode space separators, NBSP, line/paragraph separators and BOM. -/
def isJSWhitespace (c : Char) : Bool :=
  c = ' ' || c = '\t' || c = '\n' || c.val = 11 || c.val = 12 || c = '\r' ||
  c.val = 0xa0 || c.val = 0x1680 || (0x2000 ≤ c.val && c.val ≤ 0x200a) ||
  c.val = 0x2028 || c.val = 0x2029 || c.val = 0x202f || c.val = 0x205f ||
  c.val = 0x3000 || c.val = 0xfeff

/-- JavaScript `String.prototype.trim` on a character list. -/
def jsTrimList (l : List Char) : List Char :=
  ((l.dropWhile isJSWhitespace).reverse.dropWhile isJSWhitespace).reverse

/-- JavaScript `statusOutput.split('\n')` on a character list: the list of
lines, where an empty input yields one empty line. -/
def splitLines : List Char → List (List Char)
  | [] => [[]]
  | c :: rest =>
    let r := splitLines rest
    if c = '\n' then [] :: r else (c :: r.headD []) :: r.tail

/-- Character class `[MARDU]` of the status-line regex. -/
def isMARDU (c : Char) : Bool :=
  c = 'M' || c = 'A' || c = 'R' || c = 'D' || c = 'U'

/-- The suffix matcher for `\s{1,2}(.+)$`: greedy, so two whitespace
characters are consumed when a non-empty remainder is left for `(.+)`,
otherwise one; returns the `(.+)` capture. -/
def matchTailWS : List Char → Option (List Char)
  | [] => none
  | [_] => none
  | c1 :: c2 :: rest =>
    if isJSWhitespace c1 then
      if isJSWhitespace c2 && !rest.isEmpty then some rest
      else some (c2 :: rest)
    else none

/-- The whole status-line regex `^\s*([MARDU]{1,2}|\?\?)\s{1,2}(.+)$`:
`\s*` takes the maximal whitespace prefix (the following characters are
never whitespace), the status-code alternation tries two `[MARDU]`
letters, then one, then `??`, each followed by `matchTailWS`. Returns the
two captures (status code, file field). -/
def matchStatusCore : List Char → Option (List Char × List Char)
  | a :: b :: rest =>
    if isMARDU a && isMARDU b then
      ((matchTailWS rest).map (fun fp => ([a, b], fp))).or
        ((matchTailWS (b :: rest)).map (fun fp => ([a], fp)))
    else if isMARDU a then
      (matchTailWS (b :: rest)).map (fun fp => ([a], fp))
    else if a = '?' && b = '?' then
      (matchTailWS rest).map (fun fp => (['?', '?'], fp))
    else none
  | _ => none

/-- The full status-line match: drop the `^\s*` prefix, then run the
status-code alternation. -/
def matchStatusLine (line : List Char) : Option (List Char × List Char) :=
  matchStatusCore (line.dropWhile isJSWhitespace)

/-- Numeric value `FileState[char]` of one status character (reverse
lookup into the enum); unknown characters give 0. -/
def fileStateValue (c : Char) : Nat :=
  if c = 'M' then 1
  else if c = 'A' then 2
  else if c = 'R' then 4
  else if c = 'D' then 8
  else 0

/-- getFileState from gitStatusParser.ts: OR together the value of every
character of the status code. -/
def getFileState (statusCode : List Char) : Nat :=
  statusCode.foldl (fun acc c => acc ||| fileStateValue c) 0

/-- JavaScript `filePath.split('->')` on a character list. -/
def splitOnArrow : List Char → List (List Char)
  | [] => [[]]
  | '-' :: '>' :: rest => [] :: splitOnArrow rest
  | c :: rest =>
    let r := splitOnArrow rest
    (c :: r.headD []) :: r.tail

/-- JavaScript `filePath.includes('->')`. -/
def containsArrow : List Char → Bool
  | [] => false
  | '-' :: '>' :: _ => true
  | _ :: rest => containsArrow rest

/-- handleRenamedFilePath from gitStatusParser.ts: if the path contains
`->`, take the second piece of the split and trim it. -/
def handleRenamedFilePath (filePath : List Char) : List Char :=
  if containsArrow filePath then jsTrimList ((splitOnArrow filePath).getD 1 [])
  else filePath

/-- Prepend a parsed record (with its diff requests) onto the result of
the remaining lines, propagating an exit from the remaining lines. -/
def pushRecord (fc : FileChange) (requests : List String) :
    Except Nat (List FileChange × List String) →
      Except Nat (List FileChange × List String)
  | .error c => .error c
  | .ok (fcs, reqs) => .ok (fc :: fcs, requests ++ reqs)

/-- Processing of one non-blank line from the loop of
parseGitStatusOutput, given its regex match result: an unmatched line is
reported and skipped, `??` is skipped, a status code containing U exits
with code 1, and otherwise a record is built — its path is the trimmed
file field (`trimmedFilePath`), its diff is looked up under the
rename-resolved path (`fullFilePath`) when the state is not exactly
Deleted. -/
def parseMatchedLine (oracle : String → Option String) :
    Option (List Char × List Char) →
      Except Nat (List FileChange × List String) →
      Except Nat (List FileChange × List String)
  | none, restResult => restResult
  | some (statusCode, filePath), restResult =>
    if statusCode = ['?', '?'] then restResult
    else if statusCode.contains 'U' then .error 1
    else
      let trimmedFilePath := jsTrimList filePath
      let fullFilePath := handleRenamedFilePath trimmedFilePath
      let fileState := getFileState statusCode
      let diff :=
        if fileState ≠ FileStateD then oracle (String.mk fullFilePath)
        else none
      let requests :=
        if fileState ≠ FileStateD then [String.mk fullFilePath] else []
      pushRecord
        { path := String.mk trimmedFilePath, state := fileState, diff := diff }
        requests restResult

/-- The loop of parseGitStatusOutput over the list of lines. `oracle`
models the asynchronous getFileDiff collaborator; the second component
of the `ok` result logs, in order, the paths for which a diff lookup was
requested. `process.exit(1)` on an unmerged file is the `Except.error 1`
value, which makes the whole traversal's result that exit. -/
def parseStatusLines (oracle : String → Option String) :
    List (List Char) → Except Nat (List FileChange × List String)
  | [] => .ok ([], [])
  | line :: rest =>
    if jsTrimList line = [] then parseStatusLines oracle rest
    else parseMatchedLine oracle (matchStatusLine line)
      (parseStatusLines oracle rest)

/-- parseGitStatusOutput from gitStatusParser.ts: split the status text
into lines and run the parsing loop. -/
def parseGitStatusOutput (oracle : String → Option String)
    (statusOutput : String) : Except Nat (List FileChange × List String) :=
  parseStatusLines oracle (splitLines statusOutput.data)

/-- A status line on which the parser calls `process.exit(1)`: it matches
the regex and its status code contains the unmerged letter. -/
def isUnmergedLine (line : List Char) : Bool :=
  match matchStatusLine line with
  | some (code, _) => code.contains 'U'
  | none => false

/-- A status line that contributes a record to the parser's result:
non-blank, matching the regex, not untracked and not unmerged. -/
def countedLine (line : List Char) : Bool :=
  !(jsTrimList line).isEmpty &&
    match matchStatusLine line with
    | some (code, _) => !(code = ['?', '?'] : Bool) && !code.contains 'U'
    | none => false

/-- The elements kept by `aiFilePaths.filter((file, index) =>
aiFilePaths.indexOf(file) !== index)`: an occurrence is kept exactly when
an equal element occurred earlier, `seen` holding the elements already
passed. -/
def dupsAfterFirstGo (seen : List String) : List String → List String
  | [] => []
  | x :: xs =>
    if seen.contains x then x :: dupsAfterFirstGo (x :: seen) xs
    else dupsAfterFirstGo (x :: seen) xs

/-- JavaScript `[...new Set(l)]`: deduplicate keeping first occurrences,
`seen` holding the elements already emitted. -/
def jsSetDedup (seen : List String) : List String → List String
  | [] => []
  | x :: xs =>
    if seen.contains x then jsSetDedup seen xs
    else x :: jsSetDedup (x :: seen) xs

/-- validateAIOutput from commitGenerator.ts. Assigning a field only when
the computed list is non-empty equals assigning it always, since the
fields start out as empty lists. -/
def validateAIOutput (parsedJson : List AICommit) (fileChanges : List FileChange) :
    GeneratorValidationResult :=
  let allFilePaths := fileChanges.map (·.path)
  let aiFilePaths := (parsedJson.map (·.changes)).flatten
  let duplicateFiles := dupsAfterFirstGo [] aiFilePaths
  let missingFiles := allFilePaths.filter (fun f => !aiFilePaths.contains f)
  let invalidFiles := aiFilePaths.filter (fun f => !allFilePaths.contains f)
  { valid := duplicateFiles.isEmpty && missingFiles.isEmpty && invalidFiles.isEmpty
    duplicateFiles := jsSetDedup [] duplicateFiles
    missingFiles := missingFiles
    invalidFiles := jsSetDedup [] invalidFiles }

/-- The duplicate-filter callback of commitChanges applied to one group's
changes: `committed` is the mutable `committedFiles` set; a duplicate is
kept only on its first encounter, which adds it to the set. Returns the
filtered changes and the updated set. -/
def filterDupChanges (dups : List String) :
    List String → List String → List String × List String
  | [], committed => ([], committed)
  | p :: ps, committed =>
    if !dups.contains p then
      let r := filterDupChanges dups ps committed
      (p :: r.1, r.2)
    else if committed.contains p then filterDupChanges dups ps committed
    else
      let r := filterDupChanges dups ps (p :: committed)
      (p :: r.1, r.2)

/-- The duplicate-resolution loop of commitChanges: groups are processed
from the last index down to 0, threading `committedFiles` through; the
recursion processes the tail (the later groups) first. Returns the
repaired groups and the final `committedFiles` set. -/
def repairDuplicates (dups : List String) :
    List AICommit → List AICommit × List String
  | [] => ([], [])
  | g :: gs =>
    let r := repairDuplicates dups gs
    let f := filterDupChanges dups g.changes r.2
    ({ g with changes := f.1 } :: r.1, f.2)

/-- The repair phase of commitChanges from commitGenerator.ts (the part
before the commit-execution loop): on a failed validation, first resolve
duplicates when any were flagged, then drop invalid files from every
group when any were flagged. -/
def commitChangesRepair (validationResult : GeneratorValidationResult)
    (aiCommits : List AICommit) : List AICommit :=
  if validationResult.valid then aiCommits
  else
    let g1 :=
      if 0 < validationResult.duplicateFiles.length then
        (repairDuplicates validationResult.duplicateFiles aiCommits).1
      else aiCommits
    if 0 < validationResult.invalidFiles.length then
      g1.map (fun g =>
        { g with changes :=
            g.changes.filter (fun p => !validationResult.invalidFiles.contains p) })
    else g1

/-- The flattened candidate path sequence of a group list
(`parsedJson.flatMap(commit => commit.changes)`). -/
def pathsOf (groups : List AICommit) : List String :=
  (groups.map (·.changes)).flatten

theorem scontains_iff {l : List String} {x : String} :
    l.contains x = true ↔ x ∈ l :=
  List.elem_iff

theorem pathsOf_nil : pathsOf [] = [] := rfl

theorem pathsOf_cons (g : AICommit) (gs : List AICommit) :
    pathsOf (g :: gs) = g.changes ++ pathsOf gs := rfl

theorem mem_pathsOf {x : String} {groups : List AICommit} :
    x ∈ pathsOf groups ↔ ∃ g ∈ groups, x ∈ g.changes := by
  simp [pathsOf, List.mem_flatten]

theorem mem_dupsAfterFirstGo (x : String) :
    ∀ (l seen : List String),
      x ∈ dupsAfterFirstGo seen l ↔ x ∈ l ∧ (x ∈ seen ∨ 2 ≤ l.count x) := by
  intro l
  induction l with
  | nil => intro seen; simp [dupsAfterFirstGo]
  | cons y ys ih =>
    intro seen
    rw [dupsAfterFirstGo]
    by_cases hxy : x = y
    · subst hxy
      rw [List.count_cons_self]
      by_cases hy : x ∈ seen
      · rw [if_pos (scontains_iff.mpr hy)]
        simp [hy]
      · rw [if_neg (by simp [scontains_iff]; exact hy)]
        rw [ih (x :: seen)]
        constructor
        · rintro ⟨h1, _⟩
          have h2 : 0 < List.count x ys := List.count_pos_iff.mpr h1
          exact ⟨List.mem_cons_self x ys, Or.inr (by omega)⟩
        · rintro ⟨_, h | h⟩
          · exact absurd h hy
          · have h1 : 0 < List.count x ys := by omega
            exact ⟨List.count_pos_iff.mp h1, Or.inl (List.mem_cons_self x seen)⟩
    · rw [List.count_cons_of_ne hxy]
      have hmemc : x ∈ y :: seen ↔ x ∈ seen := by
        simp only [List.mem_cons, hxy, false_or]
      have hmeml : x ∈ y :: ys ↔ x ∈ ys := by
        simp only [List.mem_cons, hxy, false_or]
      by_cases hy : y ∈ seen
      · rw [if_pos (scontains_iff.mpr hy)]
        rw [List.mem_cons, ih (y :: seen), hmeml]
        constructor
        · rintro (h | ⟨h1, h2⟩)
          · exact absurd h hxy
          · exact ⟨h1, by rwa [hmemc] at h2⟩
        · rintro ⟨h1, h2⟩
          exact Or.inr ⟨h1, by rwa [hmemc]⟩
      · rw [if_neg (by simp [scontains_iff]; exact hy)]
        rw [ih (y :: seen), hmeml]
        constructor
        · rintro ⟨h1, h2⟩
          exact ⟨h1, by rwa [hmemc] at h2⟩
        · rintro ⟨h1, h2⟩
          exact ⟨h1, by rwa [hmemc]⟩

theorem mem_dupsAfterFirst {x : String} {l : List String} :
    x ∈ dupsAfterFirstGo [] l ↔ 2 ≤ l.count x := by
  rw [mem_dupsAfterFirstGo]
  constructor
  · rintro ⟨_, h | h⟩
    · exact absurd h (List.not_mem_nil x)
    · exact h
  · intro h
    exact ⟨List.count_pos_iff.mp (by omega), Or.inr h⟩

theorem mem_jsSetDedup (x : String) :
    ∀ (l seen : List String),
      x ∈ jsSetDedup seen l ↔ x ∈ l ∧ x ∉ seen := by
  intro l
  induction l with
  | nil => intro seen; simp [jsSetDedup]
  | cons y ys ih =>
    intro seen
    by_cases hy : y ∈ seen
    · rw [jsSetDedup, if_pos (scontains_iff.mpr hy)]
      rw [ih]
      constructor
      · rintro ⟨h1, h2⟩; exact ⟨List.mem_cons_of_mem _ h1, h2⟩
      · rintro ⟨h1, h2⟩
        rcases List.mem_cons.mp h1 with rfl | h1
        · exact absurd hy h2
        · exact ⟨h1, h2⟩
    · rw [jsSetDedup, if_neg (by simp [scontains_iff, hy])]
      by_cases hxy : x = y
      · subst hxy
        simp [hy]
      · have hmemc : x ∈ y :: seen ↔ x ∈ seen := by
          simp only [List.mem_cons, hxy, false_or]
        have hmeml : x ∈ y :: ys ↔ x ∈ ys := by
          simp only [List.mem_cons, hxy, false_or]
        have hmemr : x ∈ y :: jsSetDedup (y :: seen) ys ↔
            x ∈ jsSetDedup (y :: seen) ys := by
          simp only [List.mem_cons, hxy, false_or]
        rw [hmemr, ih (y :: seen), hmemc, hmeml]

theorem nodup_jsSetDedup : ∀ (l seen : List String), (jsSetDedup seen l).Nodup := by
  intro l
  induction l with
  | nil => intro seen; simp [jsSetDedup]
  | cons y ys ih =>
    intro seen
    by_cases hy : y ∈ seen
    · rw [jsSetDedup, if_pos (scontains_iff.mpr hy)]; exact ih seen
    · rw [jsSetDedup, if_neg (by simp [scontains_iff, hy])]
      refine List.Nodup.cons ?_ (ih (y :: seen))
      intro hmem
      exact ((mem_jsSetDedup y ys (y :: seen)).mp hmem).2 (List.mem_cons_self y seen)

theorem jsSetDedup_nil_iff {l : List String} :
    jsSetDedup [] l = [] ↔ ∀ x, x ∉ l := by
  rw [List.eq_nil_iff_forall_not_mem]
  constructor
  · intro h x hx
    exact h x ((mem_jsSetDedup x l []).mpr ⟨hx, List.not_mem_nil x⟩)
  · intro h x hx
    exact h x ((mem_jsSetDedup x l []).mp hx).1

theorem jsSetDedup_eq_nil {l : List String} :
    jsSetDedup [] l = [] ↔ l = [] := by
  rw [jsSetDedup_nil_iff, List.eq_nil_iff_forall_not_mem]

theorem validateAIOutput_duplicateFiles (G : List AICommit) (L : List FileChange) :
    (validateAIOutput G L).duplicateFiles =
      jsSetDedup [] (dupsAfterFirstGo [] (pathsOf G)) := rfl

theorem validateAIOutput_missingFiles (G : List AICommit) (L : List FileChange) :
    (validateAIOutput G L).missingFiles =
      (L.map (·.path)).filter (fun f => !(pathsOf G).contains f) := rfl

theorem validateAIOutput_invalidFiles (G : List AICommit) (L : List FileChange) :
    (validateAIOutput G L).invalidFiles =
      jsSetDedup [] ((pathsOf G).filter (fun f => !(L.map (·.path)).contains f)) := rfl

theorem validateAIOutput_valid (G : List AICommit) (L : List FileChange) :
    (validateAIOutput G L).valid =
      ((dupsAfterFirstGo [] (pathsOf G)).isEmpty &&
        ((L.map (·.path)).filter (fun f => !(pathsOf G).contains f)).isEmpty &&
        ((pathsOf G).filter (fun f => !(L.map (·.path)).contains f)).isEmpty) := rfl

theorem mem_validate_duplicateFiles {p : String} (G : List AICommit) (L : List FileChange) :
    p ∈ (validateAIOutput G L).duplicateFiles ↔ 2 ≤ (pathsOf G).count p := by
  rw [validateAIOutput_duplicateFiles]
  rw [mem_jsSetDedup]
  constructor
  · rintro ⟨h, _⟩; exact mem_dupsAfterFirst.mp h
  · intro h; exact ⟨mem_dupsAfterFirst.mpr h, List.not_mem_nil p⟩

theorem mem_validate_missingFiles {p : String} (G : List AICommit) (L : List FileChange) :
    p ∈ (validateAIOutput G L).missingFiles ↔
      p ∈ L.map (·.path) ∧ p ∉ pathsOf G := by
  rw [validateAIOutput_missingFiles, List.mem_filter]
  simp [scontains_iff]

theorem mem_validate_invalidFiles {p : String} (G : List AICommit) (L : List FileChange) :
    p ∈ (validateAIOutput G L).invalidFiles ↔
      p ∈ pathsOf G ∧ p ∉ L.map (·.path) := by
  rw [validateAIOutput_invalidFiles, mem_jsSetDedup]
  constructor
  · rintro ⟨h, _⟩
    have := List.mem_filter.mp h
    refine ⟨this.1, ?_⟩
    simpa [scontains_iff] using this.2
  · rintro ⟨h1, h2⟩
    refine ⟨List.mem_filter.mpr ⟨h1, ?_⟩, List.not_mem_nil p⟩
    simpa [scontains_iff] using h2

theorem validate_valid_iff (G : List AICommit) (L : List FileChange) :
    (validateAIOutput G L).valid = true ↔
      (validateAIOutput G L).duplicateFiles = [] ∧
      (validateAIOutput G L).missingFiles = [] ∧
      (validateAIOutput G L).invalidFiles = [] := by
  rw [validateAIOutput_valid, validateAIOutput_duplicateFiles,
    validateAIOutput_missingFiles, validateAIOutput_invalidFiles]
  simp only [Bool.and_eq_true, List.isEmpty_iff, jsSetDedup_eq_nil]
  tauto

/-- C2: for every authoritative FileChange list L and proposed group list
G, validateAIOutput is a total function whose duplicateFiles is exactly
the deduplicated set of paths occurring at least twice in the
concatenation of all groups' changes, whose missingFiles is exactly the
paths of L absent from that concatenation, whose invalidFiles is exactly
the deduplicated set of proposed paths that are not paths of L, and
whose valid flag is true exactly when all three are empty. -/
theorem validateAIOutput_spec (L : List FileChange) (G : List AICommit) :
    ((validateAIOutput G L).duplicateFiles.Nodup ∧
      ∀ p, p ∈ (validateAIOutput G L).duplicateFiles ↔ 2 ≤ (pathsOf G).count p) ∧
    (∀ p, p ∈ (validateAIOutput G L).missingFiles ↔
      p ∈ L.map (·.path) ∧ p ∉ pathsOf G) ∧
    ((validateAIOutput G L).invalidFiles.Nodup ∧
      ∀ p, p ∈ (validateAIOutput G L).invalidFiles ↔
        p ∈ pathsOf G ∧ p ∉ L.map (·.path)) ∧
    ((validateAIOutput G L).valid = true ↔
      (validateAIOutput G L).duplicateFiles = [] ∧
      (validateAIOutput G L).missingFiles = [] ∧
      (validateAIOutput G L).invalidFiles = []) := by
  refine ⟨⟨?_, fun p => mem_validate_duplicateFiles G L⟩,
    fun p => mem_validate_missingFiles G L,
    ⟨?_, fun p => mem_validate_invalidFiles G L⟩,
    validate_valid_iff G L⟩
  · rw [validateAIOutput_duplicateFiles]; exact nodup_jsSetDedup _ _
  · rw [validateAIOutput_invalidFiles]; exact nodup_jsSetDedup _ _

/-- C5: if the validator reports valid on (L, G) then the concatenation
of all groups' changes has no duplicate and contains exactly the paths
of L. -/
theorem validate_valid_paths_exact (L : List FileChange) (G : List AICommit)
    (h : (validateAIOutput G L).valid = true) :
    (pathsOf G).Nodup ∧ ∀ p, p ∈ pathsOf G ↔ p ∈ L.map (·.path) := by
  rcases (validate_valid_iff G L).mp h with ⟨hd, hm, hi⟩
  constructor
  · rw [List.nodup_iff_count_le_one]
    intro p
    by_contra hc
    have h2 : 2 ≤ (pathsOf G).count p := by omega
    have := (mem_validate_duplicateFiles G L).mpr h2
    rw [hd] at this
    exact List.not_mem_nil p this
  · intro p
    constructor
    · intro hp
      by_contra hnp
      have := (mem_validate_invalidFiles G L).mpr ⟨hp, hnp⟩
      rw [hi] at this
      exact List.not_mem_nil p this
    · intro hp
      by_contra hnp
      have := (mem_validate_missingFiles G L).mpr ⟨hp, hnp⟩
      rw [hm] at this
      exact List.not_mem_nil p this

/-- Closed witness for the C5 theorem at a concrete valid proposal. -/
theorem validate_valid_paths_exact_witness :
    (pathsOf [⟨"t1", ["f1", "f2"]⟩]).Nodup ∧
      ∀ p, p ∈ pathsOf [⟨"t1", ["f1", "f2"]⟩] ↔
        p ∈ ([⟨"f1", 1, none⟩, ⟨"f2", 2, none⟩] : List FileChange).map (·.path) :=
  validate_valid_paths_exact [⟨"f1", 1, none⟩, ⟨"f2", 2, none⟩]
    [⟨"t1", ["f1", "f2"]⟩] (by decide)

theorem filterDupChanges_nil (dups committed : List String) :
    filterDupChanges dups [] committed = ([], committed) := rfl

theorem filterDupChanges_cons_nondup {dups : List String} {p : String}
    (ps committed : List String) (h1 : dups.contains p = false) :
    filterDupChanges dups (p :: ps) committed =
      (p :: (filterDupChanges dups ps committed).1,
        (filterDupChanges dups ps committed).2) := by
  have hpd : p ∉ dups := fun h => by
    rw [scontains_iff.mpr h] at h1
    exact Bool.true_eq_false.mp h1
  rw [filterDupChanges]
  simp [hpd]

theorem filterDupChanges_cons_committed {dups : List String} {p : String}
    (ps : List String) {committed : List String} (h1 : dups.contains p = true)
    (h2 : committed.contains p = true) :
    filterDupChanges dups (p :: ps) committed =
      filterDupChanges dups ps committed := by
  rw [filterDupChanges]
  simp [scontains_iff.mp h1, scontains_iff.mp h2]

theorem filterDupChanges_cons_newdup {dups : List String} {p : String}
    (ps : List String) {committed : List String} (h1 : dups.contains p = true)
    (h2 : committed.contains p = false) :
    filterDupChanges dups (p :: ps) committed =
      (p :: (filterDupChanges dups ps (p :: committed)).1,
        (filterDupChanges dups ps (p :: committed)).2) := by
  have hpc : p ∉ committed := fun h => by
    rw [scontains_iff.mpr h] at h2
    exact Bool.true_eq_false.mp h2
  rw [filterDupChanges]
  simp [scontains_iff.mp h1, hpc]

theorem filterDupChanges_fst_sublist (dups : List String) :
    ∀ (ps committed : List String),
      (filterDupChanges dups ps committed).1.Sublist ps := by
  intro ps
  induction ps with
  | nil => intro c; simp [filterDupChanges_nil]
  | cons p ps ih =>
    intro c
    cases h1 : dups.contains p with
    | false =>
      rw [filterDupChanges_cons_nondup ps c h1]
      exact (ih c).cons₂ p
    | true =>
      cases h2 : c.contains p with
      | true =>
        rw [filterDupChanges_cons_committed ps h1 h2]
        exact (ih c).cons p
      | false =>
        rw [filterDupChanges_cons_newdup ps h1 h2]
        exact (ih (p :: c)).cons₂ p

theorem filterDupChanges_snd_mem (dups : List String) (q : String) :
    ∀ (ps committed : List String),
      q ∈ (filterDupChanges dups ps committed).2 ↔
        q ∈ committed ∨ (q ∈ ps ∧ q ∈ dups) := by
  intro ps
  induction ps with
  | nil => intro c; simp [filterDupChanges_nil]
  | cons p ps ih =>
    intro c
    cases h1 : dups.contains p with
    | false =>
      have hpd : p ∉ dups := fun h => by
        rw [scontains_iff.mpr h] at h1
        exact Bool.true_eq_false.mp h1
      rw [filterDupChanges_cons_nondup ps c h1, ih c]
      constructor
      · rintro (h | ⟨hm, hd⟩)
        · exact Or.inl h
        · exact Or.inr ⟨List.mem_cons_of_mem p hm, hd⟩
      · rintro (h | ⟨hm, hd⟩)
        · exact Or.inl h
        · rcases List.mem_cons.mp hm with rfl | hm
          · exact absurd hd hpd
          · exact Or.inr ⟨hm, hd⟩
    | true =>
      cases h2 : c.contains p with
      | true =>
        rw [filterDupChanges_cons_committed ps h1 h2, ih c]
        constructor
        · rintro (h | ⟨hm, hd⟩)
          · exact Or.inl h
          · exact Or.inr ⟨List.mem_cons_of_mem p hm, hd⟩
        · rintro (h | ⟨hm, hd⟩)
          · exact Or.inl h
          · rcases List.mem_cons.mp hm with rfl | hm
            · exact Or.inl (scontains_iff.mp h2)
            · exact Or.inr ⟨hm, hd⟩
      | false =>
        rw [filterDupChanges_cons_newdup ps h1 h2, ih (p :: c)]
        constructor
        · rintro (h | ⟨hm, hd⟩)
          · rcases List.mem_cons.mp h with rfl | h
            · exact Or.inr ⟨List.mem_cons_self q ps, scontains_iff.mp h1⟩
            · exact Or.inl h
          · exact Or.inr ⟨List.mem_cons_of_mem p hm, hd⟩
        · rintro (h | ⟨hm, hd⟩)
          · exact Or.inl (List.mem_cons_of_mem p h)
          · rcases List.mem_cons.mp hm with rfl | hm
            · exact Or.inl (List.mem_cons_self q c)
            · exact Or.inr ⟨hm, hd⟩

theorem filterDupChanges_count_dup (dups : List String) (q : String)
    (hq : q ∈ dups) :
    ∀ (ps committed : List String),
      List.count q (filterDupChanges dups ps committed).1 =
        if q ∈ committed then 0 else min (List.count q ps) 1 := by
  intro ps
  induction ps with
  | nil =>
    intro c
    rw [filterDupChanges_nil]
    simp only [List.count_nil]
    split <;> simp
  | cons p ps ih =>
    intro c
    cases h1 : dups.contains p with
    | false =>
      have hpd : p ∉ dups := fun h => by
        rw [scontains_iff.mpr h] at h1
        exact Bool.true_eq_false.mp h1
      have hqp : q ≠ p := fun h => hpd (h ▸ hq)
      rw [filterDupChanges_cons_nondup ps c h1, List.count_cons_of_ne hqp,
        List.count_cons_of_ne hqp]
      exact ih c
    | true =>
      cases h2 : c.contains p with
      | true =>
        rw [filterDupChanges_cons_committed ps h1 h2, ih c]
        by_cases hqc : q ∈ c
        · simp [hqc]
        · have hqp : q ≠ p := fun h => hqc (h ▸ scontains_iff.mp h2)
          rw [List.count_cons_of_ne hqp]
      | false =>
        rw [filterDupChanges_cons_newdup ps h1 h2]
        by_cases hqp : q = p
        · subst hqp
          have hqc : q ∉ c := fun h => by
            rw [scontains_iff.mpr h] at h2
            exact Bool.true_eq_false.mp h2
          rw [List.count_cons_self, List.count_cons_self, ih (q :: c),
            if_pos (List.mem_cons_self q c), if_neg hqc]
          omega
        · rw [List.count_cons_of_ne hqp, List.count_cons_of_ne hqp, ih (p :: c)]
          have hiff : (q ∈ p :: c) ↔ q ∈ c := by
            simp only [List.mem_cons, hqp, false_or]
          simp only [hiff]

theorem filterDupChanges_count_nondup (dups : List String) (q : String)
    (hq : q ∉ dups) :
    ∀ (ps committed : List String),
      List.count q (filterDupChanges dups ps committed).1 = List.count q ps := by
  intro ps
  induction ps with
  | nil => intro c; rw [filterDupChanges_nil]
  | cons p ps ih =>
    intro c
    cases h1 : dups.contains p with
    | false =>
      rw [filterDupChanges_cons_nondup ps c h1]
      by_cases hqp : q = p
      · subst hqp
        rw [List.count_cons_self, List.count_cons_self, ih c]
      · rw [List.count_cons_of_ne hqp, List.count_cons_of_ne hqp, ih c]
    | true =>
      have hqp : q ≠ p := fun h => hq (h ▸ scontains_iff.mp h1)
      cases h2 : c.contains p with
      | true =>
        rw [filterDupChanges_cons_committed ps h1 h2, ih c,
          List.count_cons_of_ne hqp]
      | false =>
        rw [filterDupChanges_cons_newdup ps h1 h2, List.count_cons_of_ne hqp,
          List.count_cons_of_ne hqp, ih (p :: c)]

theorem repairDuplicates_nil (dups : List String) :
    repairDuplicates dups [] = ([], []) := rfl

theorem repairDuplicates_cons (dups : List String) (g : AICommit)
    (gs : List AICommit) :
    repairDuplicates dups (g :: gs) =
      ({ g with changes :=
          (filterDupChanges dups g.changes (repairDuplicates dups gs).2).1 } ::
        (repairDuplicates dups gs).1,
        (filterDupChanges dups g.changes (repairDuplicates dups gs).2).2) := rfl

theorem repairDuplicates_forall₂ (dups : List String) :
    ∀ gs : List AICommit,
      List.Forall₂ (fun g g' => g'.title = g.title ∧ g'.changes.Sublist g.changes)
        gs (repairDuplicates dups gs).1 := by
  intro gs
  induction gs with
  | nil => exact List.Forall₂.nil
  | cons g gs ih =>
    rw [repairDuplicates_cons]
    exact List.Forall₂.cons ⟨rfl, filterDupChanges_fst_sublist dups g.changes _⟩ ih

theorem repairDuplicates_snd_mem (dups : List String) (q : String) :
    ∀ gs : List AICommit,
      q ∈ (repairDuplicates dups gs).2 ↔ q ∈ dups ∧ q ∈ pathsOf gs := by
  intro gs
  induction gs with
  | nil => simp [repairDuplicates_nil, pathsOf]
  | cons g gs ih =>
    rw [repairDuplicates_cons]
    show q ∈ (filterDupChanges dups g.changes (repairDuplicates dups gs).2).2 ↔ _
    rw [filterDupChanges_snd_mem, ih, pathsOf_cons, List.mem_append]
    tauto

theorem repairDuplicates_count_dup (dups : List String) (q : String)
    (hq : q ∈ dups) :
    ∀ gs : List AICommit,
      List.count q (pathsOf (repairDuplicates dups gs).1) =
        min (List.count q (pathsOf gs)) 1 := by
  intro gs
  induction gs with
  | nil => simp [repairDuplicates_nil, pathsOf]
  | cons g gs ih =>
    rw [repairDuplicates_cons]
    show List.count q (pathsOf
      ({ g with changes :=
          (filterDupChanges dups g.changes (repairDuplicates dups gs).2).1 } ::
        (repairDuplicates dups gs).1)) = _
    rw [pathsOf_cons, List.count_append, pathsOf_cons, List.count_append]
    show List.count q (filterDupChanges dups g.changes
        (repairDuplicates dups gs).2).1 + _ = _
    rw [ih, filterDupChanges_count_dup dups q hq]
    by_cases hmem : q ∈ (repairDuplicates dups gs).2
    · have h1 : q ∈ pathsOf gs := ((repairDuplicates_snd_mem dups q gs).mp hmem).2
      have h2 : 0 < List.count q (pathsOf gs) := List.count_pos_iff.mpr h1
      rw [if_pos hmem]
      omega
    · have h1 : q ∉ pathsOf gs := fun h =>
        hmem ((repairDuplicates_snd_mem dups q gs).mpr ⟨hq, h⟩)
      have h2 : List.count q (pathsOf gs) = 0 := List.count_eq_zero.mpr h1
      rw [if_neg hmem, h2]
      omega

theorem repairDuplicates_count_nondup (dups : List String) (q : String)
    (hq : q ∉ dups) :
    ∀ gs : List AICommit,
      List.count q (pathsOf (repairDuplicates dups gs).1) =
        List.count q (pathsOf gs) := by
  intro gs
  induction gs with
  | nil => simp [repairDuplicates_nil, pathsOf]
  | cons g gs ih =>
    rw [repairDuplicates_cons]
    show List.count q (pathsOf
      ({ g with changes :=
          (filterDupChanges dups g.changes (repairDuplicates dups gs).2).1 } ::
        (repairDuplicates dups gs).1)) = _
    rw [pathsOf_cons, List.count_append, pathsOf_cons, List.count_append]
    show List.count q (filterDupChanges dups g.changes
        (repairDuplicates dups gs).2).1 + _ = _
    rw [ih, filterDupChanges_count_nondup dups q hq]

theorem commitChangesRepair_valid {v : GeneratorValidationResult}
    (G : List AICommit) (hv : v.valid = true) :
    commitChangesRepair v G = G := by
  rw [commitChangesRepair, if_pos hv]

theorem commitChangesRepair_invalid {v : GeneratorValidationResult}
    (G : List AICommit) (hv : v.valid = false) :
    commitChangesRepair v G =
      (if 0 < v.invalidFiles.length then
        (if 0 < v.duplicateFiles.length then
          (repairDuplicates v.duplicateFiles G).1
        else G).map
          (fun g =>
            { g with
              changes := g.changes.filter (fun p => !v.invalidFiles.contains p) })
      else
        (if 0 < v.duplicateFiles.length then
          (repairDuplicates v.duplicateFiles G).1
        else G)) := by
  rw [commitChangesRepair, hv]
  rfl

theorem forall₂_titleSub_trans {a b c : List AICommit}
    (h1 : List.Forall₂
      (fun g g' => g'.title = g.title ∧ g'.changes.Sublist g.changes) a b)
    (h2 : List.Forall₂
      (fun g g' => g'.title = g.title ∧ g'.changes.Sublist g.changes) b c) :
    List.Forall₂ (fun g g' => g'.title = g.title ∧ g'.changes.Sublist g.changes)
      a c := by
  induction h1 generalizing c with
  | nil => cases h2; exact List.Forall₂.nil
  | cons hab h1' ih =>
    cases h2 with
    | cons hbc h2' =>
      exact List.Forall₂.cons ⟨hbc.1.trans hab.1, hbc.2.trans hab.2⟩ (ih h2')

theorem forall₂_titleSub_refl (G : List AICommit) :
    List.Forall₂ (fun g g' => g'.title = g.title ∧ g'.changes.Sublist g.changes)
      G G :=
  List.forall₂_same.mpr (fun g _ => ⟨rfl, List.Sublist.refl g.changes⟩)

theorem commitChangesRepair_forall₂ (v : GeneratorValidationResult)
    (G : List AICommit) :
    List.Forall₂ (fun g g' => g'.title = g.title ∧ g'.changes.Sublist g.changes)
      G (commitChangesRepair v G) := by
  cases hv : v.valid with
  | true =>
    rw [commitChangesRepair_valid G hv]
    exact forall₂_titleSub_refl G
  | false =>
    rw [commitChangesRepair_invalid G hv]
    have hg1 : List.Forall₂
        (fun g g' => g'.title = g.title ∧ g'.changes.Sublist g.changes) G
        (if 0 < v.duplicateFiles.length then (repairDuplicates v.duplicateFiles G).1
         else G) := by
      split
      · exact repairDuplicates_forall₂ v.duplicateFiles G
      · exact forall₂_titleSub_refl G
    split
    · refine forall₂_titleSub_trans hg1 ?_
      rw [List.forall₂_map_right_iff]
      exact List.forall₂_same.mpr
        (fun g _ => ⟨rfl, List.filter_sublist g.changes⟩)
    · exact hg1

/-- C10: the repair step preserves the number of groups, their order and
titles, never inserts a path, keeps every surviving path in its relative
order (each repaired changes list is a sublist of the original), and in
particular a fully emptied group stays in the list. -/
theorem commitChangesRepair_frame (v : GeneratorValidationResult)
    (G : List AICommit) :
    (commitChangesRepair v G).length = G.length ∧
    List.Forall₂ (fun g g' => g'.title = g.title ∧ g'.changes.Sublist g.changes)
      G (commitChangesRepair v G) :=
  ⟨(commitChangesRepair_forall₂ v G).length_eq.symm,
    commitChangesRepair_forall₂ v G⟩

theorem forall₂_mem_right {R : AICommit → AICommit → Prop}
    {a b : List AICommit} (h : List.Forall₂ R a b) {y : AICommit}
    (hy : y ∈ b) : ∃ x ∈ a, R x y := by
  induction h with
  | nil => cases hy
  | cons hr h ih =>
    rcases List.mem_cons.mp hy with rfl | hy
    · exact ⟨_, List.mem_cons_self _ _, hr⟩
    · rcases ih hy with ⟨x, hx, hxy⟩
      exact ⟨x, List.mem_cons_of_mem _ hx, hxy⟩

/-- C6: for every proposal and its validation result, the repair step
removes every path flagged invalid from every group, and paths flagged
missing appear in no repaired group (nothing is synthesized for them). -/
theorem commitChangesRepair_invalid_missing (L : List FileChange)
    (G : List AICommit) (p : String) (g : AICommit)
    (hp : p ∈ (validateAIOutput G L).invalidFiles ∨
      p ∈ (validateAIOutput G L).missingFiles)
    (hg : g ∈ commitChangesRepair (validateAIOutput G L) G) :
    p ∉ g.changes := by
  rcases hp with hp | hp
  · have hvv : (validateAIOutput G L).valid = false := by
      cases hvv : (validateAIOutput G L).valid with
      | false => rfl
      | true =>
        rcases (validate_valid_iff G L).mp hvv with ⟨_, _, hinv⟩
        rw [hinv] at hp
        exact absurd hp (List.not_mem_nil p)
    rw [commitChangesRepair_invalid G hvv] at hg
    have hgate : 0 < (validateAIOutput G L).invalidFiles.length :=
      List.length_pos.mpr (List.ne_nil_of_mem hp)
    rw [if_pos hgate] at hg
    rcases List.mem_map.mp hg with ⟨gb, _, rfl⟩
    intro hmem
    have := List.mem_filter.mp hmem
    have hnc : ((validateAIOutput G L).invalidFiles.contains p = false) := by
      cases hc : (validateAIOutput G L).invalidFiles.contains p with
      | false => rfl
      | true => rw [hc] at this; exact absurd this.2 (by simp)
    rw [scontains_iff.mpr hp] at hnc
    exact Bool.true_eq_false.mp hnc
  · have hnp : p ∉ pathsOf G := ((mem_validate_missingFiles G L).mp hp).2
    intro hmem
    rcases forall₂_mem_right (commitChangesRepair_forall₂ (validateAIOutput G L) G)
      hg with ⟨gb, hgb, _, hsub⟩
    exact hnp (mem_pathsOf.mpr ⟨gb, hgb, hsub.mem hmem⟩)

/-- Closed witness for the C6 theorem: the invalid path zz is removed
from the only group, and the missing path f2 appears in no group. -/
theorem commitChangesRepair_invalid_missing_witness :
    ("zz" : String) ∉ (⟨"A", ["f1"]⟩ : AICommit).changes :=
  commitChangesRepair_invalid_missing
    [⟨"f1", 1, none⟩, ⟨"f2", 1, none⟩] [⟨"A", ["f1", "zz"]⟩] "zz"
    ⟨"A", ["f1"]⟩ (Or.inl (by decide)) (by decide)

theorem filterDupChanges_fst_mem_dup (dups : List String) (q : String)
    (hq : q ∈ dups) (ps c : List String) :
    q ∈ (filterDupChanges dups ps c).1 ↔ q ∈ ps ∧ q ∉ c := by
  rw [← List.count_pos_iff, filterDupChanges_count_dup dups q hq]
  by_cases hqc : q ∈ c
  · simp [hqc]
  · rw [if_neg hqc]
    constructor
    · intro h
      refine ⟨?_, hqc⟩
      have h1 : 0 < List.count q ps := by omega
      exact List.count_pos_iff.mp h1
    · rintro ⟨h, _⟩
      have h1 : 0 < List.count q ps := List.count_pos_iff.mpr h
      omega

theorem repairDuplicates_get_mem (dups : List String) (q : String)
    (hq : q ∈ dups) :
    ∀ (gs : List AICommit) (i : Nat) (g g' : AICommit),
      gs.get? i = some g → (repairDuplicates dups gs).1.get? i = some g' →
      (q ∈ g'.changes ↔ q ∈ g.changes ∧
        ∀ j gj, i < j → gs.get? j = some gj → q ∉ gj.changes) := by
  intro gs
  induction gs with
  | nil =>
    intro i g g' h1 _
    rw [List.get?_nil] at h1
    cases h1
  | cons x gs ih =>
    intro i g g' h1 h2
    rw [repairDuplicates_cons] at h2
    cases i with
    | zero =>
      rw [List.get?_cons_zero] at h1 h2
      injection h1 with h1
      injection h2 with h2
      subst h1
      subst h2
      show q ∈ (filterDupChanges dups x.changes (repairDuplicates dups gs).2).1 ↔ _
      rw [filterDupChanges_fst_mem_dup dups q hq]
      constructor
      · rintro ⟨hmem, hnc⟩
        refine ⟨hmem, ?_⟩
        intro j gj hj hget hqe
        cases j with
        | zero => omega
        | succ j' =>
          rw [List.get?_cons_succ] at hget
          exact hnc ((repairDuplicates_snd_mem dups q gs).mpr
            ⟨hq, mem_pathsOf.mpr ⟨gj, List.get?_mem hget, hqe⟩⟩)
      · rintro ⟨hmem, hall⟩
        refine ⟨hmem, ?_⟩
        intro hc
        rcases (repairDuplicates_snd_mem dups q gs).mp hc with ⟨_, hpaths⟩
        rcases mem_pathsOf.mp hpaths with ⟨gj, hgj, hqgj⟩
        rcases List.mem_iff_get?.mp hgj with ⟨n, hn⟩
        exact hall (n + 1) gj (by omega)
          (by rw [List.get?_cons_succ]; exact hn) hqgj
    | succ i' =>
      rw [List.get?_cons_succ] at h1 h2
      rw [ih i' g g' h1 h2]
      constructor
      · rintro ⟨hmem, hall⟩
        refine ⟨hmem, ?_⟩
        intro j gj hj hget
        cases j with
        | zero => omega
        | succ j' =>
          rw [List.get?_cons_succ] at hget
          exact hall j' gj (by omega) hget
      · rintro ⟨hmem, hall⟩
        refine ⟨hmem, ?_⟩
        intro j gj hj hget
        exact hall (j + 1) gj (by omega)
          (by rw [List.get?_cons_succ]; exact hget)

/-- C3: when validation flags duplicates, the duplicate-resolution pass
(processing groups from the last to the first) keeps exactly one
occurrence of each duplicate path — it survives precisely in the
latest-declared group that originally contained it — and in the spec's
scenario the full repair turns A=[f1,f2], B=[f2,f3] into A=[f1],
B=[f2,f3]. -/
theorem repairDuplicates_policy (L : List FileChange) (G : List AICommit)
    (p : String) (hp : p ∈ (validateAIOutput G L).duplicateFiles) :
    (List.count p
        (pathsOf (repairDuplicates (validateAIOutput G L).duplicateFiles G).1) = 1 ∧
      ∀ i g g', G.get? i = some g →
        (repairDuplicates (validateAIOutput G L).duplicateFiles G).1.get? i =
          some g' →
        (p ∈ g'.changes ↔ p ∈ g.changes ∧
          ∀ j gj, i < j → G.get? j = some gj → p ∉ gj.changes)) ∧
    commitChangesRepair
        (validateAIOutput [⟨"A", ["f1", "f2"]⟩, ⟨"B", ["f2", "f3"]⟩]
          [⟨"f1", 1, none⟩, ⟨"f2", 1, none⟩, ⟨"f3", 1, none⟩])
        [⟨"A", ["f1", "f2"]⟩, ⟨"B", ["f2", "f3"]⟩] =
      [⟨"A", ["f1"]⟩, ⟨"B", ["f2", "f3"]⟩] := by
  refine ⟨⟨?_, ?_⟩, by decide⟩
  · rw [repairDuplicates_count_dup _ p hp]
    have h2 : 2 ≤ List.count p (pathsOf G) :=
      (mem_validate_duplicateFiles G L).mp hp
    omega
  · intro i g g' h1 h2
    exact repairDuplicates_get_mem _ p hp G i g g' h1 h2

/-- Closed witness for the C3 theorem at a duplicate inside a single
two-element proposal. -/
theorem repairDuplicates_policy_witness :
    (List.count "a"
        (pathsOf (repairDuplicates
          (validateAIOutput [⟨"t", ["a", "a"]⟩] [⟨"a", 1, none⟩]).duplicateFiles
          [⟨"t", ["a", "a"]⟩]).1) = 1 ∧
      ∀ i g g', ([⟨"t", ["a", "a"]⟩] : List AICommit).get? i = some g →
        (repairDuplicates
          (validateAIOutput [⟨"t", ["a", "a"]⟩] [⟨"a", 1, none⟩]).duplicateFiles
          [⟨"t", ["a", "a"]⟩]).1.get? i = some g' →
        (("a" : String) ∈ g'.changes ↔ ("a" : String) ∈ g.changes ∧
          ∀ j gj, i < j →
            ([⟨"t", ["a", "a"]⟩] : List AICommit).get? j = some gj →
            ("a" : String) ∉ gj.changes)) ∧
    commitChangesRepair
        (validateAIOutput [⟨"A", ["f1", "f2"]⟩, ⟨"B", ["f2", "f3"]⟩]
          [⟨"f1", 1, none⟩, ⟨"f2", 1, none⟩, ⟨"f3", 1, none⟩])
        [⟨"A", ["f1", "f2"]⟩, ⟨"B", ["f2", "f3"]⟩] =
      [⟨"A", ["f1"]⟩, ⟨"B", ["f2", "f3"]⟩] :=
  repairDuplicates_policy [⟨"a", 1, none⟩] [⟨"t", ["a", "a"]⟩] "a" (by decide)

theorem pathsOf_sublist_of_forall₂ {a b : List AICommit}
    (h : List.Forall₂
      (fun g g' => g'.title = g.title ∧ g'.changes.Sublist g.changes) a b) :
    (pathsOf b).Sublist (pathsOf a) := by
  induction h with
  | nil => exact List.Sublist.refl []
  | cons hr h ih =>
    rw [pathsOf_cons, pathsOf_cons]
    exact hr.2.append ih

theorem g1_count_le_one (L : List FileChange) (G : List AICommit) (q : String) :
    List.count q (pathsOf
      (if 0 < (validateAIOutput G L).duplicateFiles.length then
        (repairDuplicates (validateAIOutput G L).duplicateFiles G).1
      else G)) ≤ 1 := by
  split
  · by_cases hqd : q ∈ (validateAIOutput G L).duplicateFiles
    · rw [repairDuplicates_count_dup _ q hqd]
      omega
    · rw [repairDuplicates_count_nondup _ q hqd]
      by_contra h
      have h2 : 2 ≤ List.count q (pathsOf G) := by omega
      exact hqd ((mem_validate_duplicateFiles G L).mpr h2)
  · rename_i hgate
    by_contra h
    have h2 : 2 ≤ List.count q (pathsOf G) := by omega
    have hmem := (mem_validate_duplicateFiles G L).mpr h2
    have hlen : (validateAIOutput G L).duplicateFiles.length = 0 := by omega
    rw [List.length_eq_zero] at hlen
    rw [hlen] at hmem
    exact List.not_mem_nil q hmem

theorem g1_paths_sublist (L : List FileChange) (G : List AICommit) :
    (pathsOf
      (if 0 < (validateAIOutput G L).duplicateFiles.length then
        (repairDuplicates (validateAIOutput G L).duplicateFiles G).1
      else G)).Sublist (pathsOf G) := by
  split
  · exact pathsOf_sublist_of_forall₂ (repairDuplicates_forall₂ _ G)
  · exact List.Sublist.refl _

theorem repaired_count_le_one (L : List FileChange) (G : List AICommit)
    (hvv : (validateAIOutput G L).valid = false) (q : String) :
    List.count q (pathsOf (commitChangesRepair (validateAIOutput G L) G)) ≤ 1 := by
  rw [commitChangesRepair_invalid G hvv]
  split
  · refine le_trans (List.Sublist.count_le ?_ q) (g1_count_le_one L G q)
    apply pathsOf_sublist_of_forall₂
    rw [List.forall₂_map_right_iff]
    exact List.forall₂_same.mpr (fun g _ => ⟨rfl, List.filter_sublist g.changes⟩)
  · exact g1_count_le_one L G q

theorem repaired_paths_in_L (L : List FileChange) (G : List AICommit)
    (hvv : (validateAIOutput G L).valid = false) (q : String)
    (hq : q ∈ pathsOf (commitChangesRepair (validateAIOutput G L) G)) :
    q ∈ L.map (·.path) := by
  rw [commitChangesRepair_invalid G hvv] at hq
  by_cases hgi : 0 < (validateAIOutput G L).invalidFiles.length
  · rw [if_pos hgi] at hq
    rcases mem_pathsOf.mp hq with ⟨g, hgmem, hqg⟩
    rcases List.mem_map.mp hgmem with ⟨gb, hgb, rfl⟩
    have hfil := List.mem_filter.mp hqg
    have hqgb : q ∈ gb.changes := hfil.1
    have hnc : q ∉ (validateAIOutput G L).invalidFiles := by
      intro hmem
      have hc := scontains_iff.mpr hmem
      have h2 := hfil.2
      rw [hc] at h2
      simp at h2
    have hqG : q ∈ pathsOf G :=
      (g1_paths_sublist L G).mem (mem_pathsOf.mpr ⟨gb, hgb, hqgb⟩)
    by_contra hnot
    exact hnc ((mem_validate_invalidFiles G L).mpr ⟨hqG, hnot⟩)
  · rw [if_neg hgi] at hq
    have hinvnil : (validateAIOutput G L).invalidFiles = [] := by
      have hlen : (validateAIOutput G L).invalidFiles.length = 0 := by omega
      exact List.length_eq_zero.mp hlen
    have hqG : q ∈ pathsOf G := (g1_paths_sublist L G).mem hq
    by_contra hnot
    have hmem := (mem_validate_invalidFiles G L).mpr ⟨hqG, hnot⟩
    rw [hinvnil] at hmem
    exact List.not_mem_nil q hmem

/-- C4: grouping repair is idempotent — applying the repair step to its
own output, against a freshly computed validation of that output, is the
identity. -/
theorem commitChangesRepair_idempotent (L : List FileChange) (G : List AICommit) :
    commitChangesRepair
      (validateAIOutput (commitChangesRepair (validateAIOutput G L) G) L)
      (commitChangesRepair (validateAIOutput G L) G) =
    commitChangesRepair (validateAIOutput G L) G := by
  cases hvv : (validateAIOutput G L).valid with
  | true =>
    rw [commitChangesRepair_valid G hvv]
    exact commitChangesRepair_valid G hvv
  | false =>
    have hdup : (validateAIOutput
        (commitChangesRepair (validateAIOutput G L) G) L).duplicateFiles = [] := by
      rw [validateAIOutput_duplicateFiles, jsSetDedup_eq_nil,
        List.eq_nil_iff_forall_not_mem]
      intro q hq
      have h2 := mem_dupsAfterFirst.mp hq
      have h2' : 2 ≤ List.count q
          (pathsOf (commitChangesRepair (validateAIOutput G L) G)) := h2
      have h1 := repaired_count_le_one L G hvv q
      omega
    have hinv : (validateAIOutput
        (commitChangesRepair (validateAIOutput G L) G) L).invalidFiles = [] := by
      rw [validateAIOutput_invalidFiles, jsSetDedup_eq_nil,
        List.filter_eq_nil_iff]
      intro q hq
      have hmem := repaired_paths_in_L L G hvv q hq
      have hc := scontains_iff.mpr hmem
      simp only [hc, Bool.not_true, Bool.false_eq_true, not_false_eq_true]
    cases hv' : (validateAIOutput
        (commitChangesRepair (validateAIOutput G L) G) L).valid with
    | true => exact commitChangesRepair_valid _ hv'
    | false =>
      rw [commitChangesRepair_invalid _ hv', hdup, hinv]
      simp

theorem ccontains_iff {l : List Char} {x : Char} :
    l.contains x = true ↔ x ∈ l :=
  List.elem_iff

theorem jsTrimList_eq_nil_iff {l : List Char} :
    jsTrimList l = [] ↔ ∀ c ∈ l, isJSWhitespace c = true := by
  rw [jsTrimList, List.reverse_eq_nil_iff, List.dropWhile_eq_nil_iff]
  constructor
  · intro h c hc
    rw [← List.takeWhile_append_dropWhile isJSWhitespace l] at hc
    rcases List.mem_append.mp hc with hc | hc
    · exact List.mem_takeWhile_imp hc
    · exact h c (List.mem_reverse.mpr hc)
  · intro h c hc
    exact h c (List.Sublist.mem (List.mem_reverse.mp hc)
      (List.dropWhile_sublist isJSWhitespace))

theorem isMARDU_chars {a : Char} (h : isMARDU a = true) :
    a = 'M' ∨ a = 'A' ∨ a = 'R' ∨ a = 'D' ∨ a = 'U' := by
  rw [isMARDU] at h
  simp only [Bool.or_eq_true, decide_eq_true_eq] at h
  tauto

theorem isMARDU_not_ws {a : Char} (h : isMARDU a = true) :
    isJSWhitespace a = false := by
  rcases isMARDU_chars h with rfl | rfl | rfl | rfl | rfl <;> decide

theorem matched_facts {line code fp : List Char}
    (h : matchStatusLine line = some (code, fp)) :
    jsTrimList line ≠ [] ∧
    (code = ['?', '?'] ∨ (code ≠ [] ∧ ∀ c ∈ code, isMARDU c = true)) := by
  rw [matchStatusLine] at h
  cases hdw : line.dropWhile isJSWhitespace with
  | nil =>
    rw [hdw] at h
    exact Option.noConfusion h
  | cons a t =>
    cases t with
    | nil =>
      rw [hdw] at h
      exact Option.noConfusion h
    | cons b rest =>
      rw [hdw, matchStatusCore] at h
      have hadw : a ∈ line :=
        List.Sublist.mem
          (by rw [hdw]; exact List.mem_cons_self a (b :: rest))
          (List.dropWhile_sublist isJSWhitespace)
      have htrim : isJSWhitespace a = false → jsTrimList line ≠ [] := by
        intro hws hnil
        rw [jsTrimList_eq_nil_iff] at hnil
        rw [hnil a hadw] at hws
        exact Bool.true_eq_false.mp hws
      by_cases h1 : (isMARDU a && isMARDU b) = true
      · rw [if_pos h1] at h
        rw [Bool.and_eq_true] at h1
        refine ⟨htrim (isMARDU_not_ws h1.1), Or.inr ?_⟩
        cases hmt : matchTailWS rest with
        | some fp1 =>
          rw [hmt] at h
          have hpair : (([a, b], fp1) : List Char × List Char) = (code, fp) :=
            Option.some.inj h
          have hcode : code = [a, b] := (congrArg Prod.fst hpair).symm
          rw [hcode]
          refine ⟨List.cons_ne_nil a [b], ?_⟩
          intro c hc
          rcases List.mem_cons.mp hc with rfl | hc
          · exact h1.1
          · rcases List.mem_cons.mp hc with rfl | hc
            · exact h1.2
            · exact absurd hc (List.not_mem_nil c)
        | none =>
          rw [hmt] at h
          cases hmt2 : matchTailWS (b :: rest) with
          | some fp2 =>
            rw [hmt2] at h
            have hpair : (([a], fp2) : List Char × List Char) = (code, fp) :=
              Option.some.inj h
            have hcode : code = [a] := (congrArg Prod.fst hpair).symm
            rw [hcode]
            refine ⟨List.cons_ne_nil a [], ?_⟩
            intro c hc
            rcases List.mem_cons.mp hc with rfl | hc
            · exact h1.1
            · exact absurd hc (List.not_mem_nil c)
          | none =>
            rw [hmt2] at h
            exact Option.noConfusion h
      · rw [if_neg h1] at h
        by_cases h2 : isMARDU a = true
        · rw [if_pos h2] at h
          refine ⟨htrim (isMARDU_not_ws h2), Or.inr ?_⟩
          cases hmt : matchTailWS (b :: rest) with
          | some fp1 =>
            rw [hmt] at h
            have hpair : (([a], fp1) : List Char × List Char) = (code, fp) :=
              Option.some.inj h
            have hcode : code = [a] := (congrArg Prod.fst hpair).symm
            rw [hcode]
            refine ⟨List.cons_ne_nil a [], ?_⟩
            intro c hc
            rcases List.mem_cons.mp hc with rfl | hc
            · exact h2
            · exact absurd hc (List.not_mem_nil c)
          | none =>
            rw [hmt] at h
            exact Option.noConfusion h
        · rw [if_neg h2] at h
          split at h
          · rename_i h3
            rw [Bool.and_eq_true] at h3
            have ha : a = '?' := of_decide_eq_true h3.1
            cases hmt : matchTailWS rest with
            | some fp1 =>
              rw [hmt] at h
              have hpair : ((['?', '?'], fp1) : List Char × List Char) =
                  (code, fp) := Option.some.inj h
              have hcode : code = ['?', '?'] := (congrArg Prod.fst hpair).symm
              refine ⟨htrim ?_, Or.inl hcode⟩
              rw [ha]
              decide
            | none =>
              rw [hmt] at h
              exact Option.noConfusion h
          · exact Option.noConfusion h

theorem parseStatusLines_nil (oracle : String → Option String) :
    parseStatusLines oracle [] = .ok ([], []) := rfl

theorem parseStatusLines_blank (oracle : String → Option String)
    {line : List Char} (h : jsTrimList line = []) (rest : List (List Char)) :
    parseStatusLines oracle (line :: rest) = parseStatusLines oracle rest := by
  rw [parseStatusLines, if_pos h]

theorem parseStatusLines_nomatch (oracle : String → Option String)
    {line : List Char} (h : jsTrimList line ≠ [])
    (hm : matchStatusLine line = none) (rest : List (List Char)) :
    parseStatusLines oracle (line :: rest) = parseStatusLines oracle rest := by
  rw [parseStatusLines, if_neg h, hm, parseMatchedLine]

theorem parseStatusLines_untracked (oracle : String → Option String)
    {line fp : List Char} (h : jsTrimList line ≠ [])
    (hm : matchStatusLine line = some (['?', '?'], fp))
    (rest : List (List Char)) :
    parseStatusLines oracle (line :: rest) = parseStatusLines oracle rest := by
  rw [parseStatusLines, if_neg h, hm]
  simp only [parseMatchedLine]
  rw [if_pos trivial]

theorem parseStatusLines_unmerged (oracle : String → Option String)
    {line code fp : List Char} (h : jsTrimList line ≠ [])
    (hm : matchStatusLine line = some (code, fp)) (hq : code ≠ ['?', '?'])
    (hU : code.contains 'U' = true) (rest : List (List Char)) :
    parseStatusLines oracle (line :: rest) = .error 1 := by
  rw [parseStatusLines, if_neg h, hm]
  simp only [parseMatchedLine]
  rw [if_neg hq, if_pos hU]

theorem pushRecord_error (fc : FileChange) (requests : List String) (c : Nat) :
    pushRecord fc requests (.error c) = .error c := rfl

theorem pushRecord_ok (fc : FileChange) (requests : List String)
    (fcs : List FileChange) (reqs : List String) :
    pushRecord fc requests (.ok (fcs, reqs)) = .ok (fc :: fcs, requests ++ reqs) :=
  rfl

theorem parseStatusLines_push (oracle : String → Option String)
    {line code fp : List Char} (h : jsTrimList line ≠ [])
    (hm : matchStatusLine line = some (code, fp)) (hq : code ≠ ['?', '?'])
    (hU : code.contains 'U' = false) (rest : List (List Char)) :
    parseStatusLines oracle (line :: rest) =
      pushRecord
        { path := String.mk (jsTrimList fp), state := getFileState code,
          diff :=
            if getFileState code ≠ FileStateD then
              oracle (String.mk (handleRenamedFilePath (jsTrimList fp)))
            else none }
        (if getFileState code ≠ FileStateD then
            [String.mk (handleRenamedFilePath (jsTrimList fp))]
          else [])
        (parseStatusLines oracle rest) := by
  rw [parseStatusLines, if_neg h, hm]
  simp only [parseMatchedLine]
  rw [if_neg hq, if_neg (by rw [hU]; exact Bool.false_ne_true)]

/-- C1 (code bug shown at the failing input): on the rename line
`R  a.txt -> b.txt` the parser requests the diff for `b.txt` only and
classifies the record as Renamed, but the record's path is the whole
trimmed field `a.txt -> b.txt` — the computed rename destination is used
only for the diff lookup, while the repository's own test expects the
destination path. -/
theorem rename_line_behavior :
    parseGitStatusOutput (fun _ => some "diff content") "R  a.txt -> b.txt" =
      .ok ([{ path := "a.txt -> b.txt", state := 4, diff := some "diff content" }],
        ["b.txt"]) ∧
    ("a.txt -> b.txt" : String) ≠ "b.txt" :=
  ⟨by rfl, by decide⟩

theorem unmerged_step (oracle : String → Option String) {line : List Char}
    (hu : isUnmergedLine line = true) (rest : List (List Char)) :
    parseStatusLines oracle (line :: rest) = .error 1 := by
  rw [isUnmergedLine] at hu
  cases hm : matchStatusLine line with
  | none =>
    rw [hm] at hu
    exact absurd (hu : (false : Bool) = true) Bool.false_ne_true
  | some cf =>
    obtain ⟨code, fp⟩ := cf
    rw [hm] at hu
    have hu' : code.contains 'U' = true := hu
    have hq : code ≠ ['?', '?'] := by
      intro hc
      subst hc
      exact absurd hu' (by decide)
    exact parseStatusLines_unmerged oracle (matched_facts hm).1 hm hq hu' rest

theorem parse_lines_error_of_unmerged (oracle : String → Option String) :
    ∀ lines : List (List Char),
      (∃ line ∈ lines, isUnmergedLine line = true) →
      parseStatusLines oracle lines = .error 1 := by
  intro lines
  induction lines with
  | nil =>
    rintro ⟨l, hl, _⟩
    exact absurd hl (List.not_mem_nil l)
  | cons x rest ih =>
    rintro ⟨l, hl, hu⟩
    rcases List.mem_cons.mp hl with rfl | hl
    · exact unmerged_step oracle hu rest
    · have hrec := ih ⟨l, hl, hu⟩
      by_cases hb : jsTrimList x = []
      · rw [parseStatusLines_blank oracle hb rest, hrec]
      · cases hm : matchStatusLine x with
        | none => rw [parseStatusLines_nomatch oracle hb hm rest, hrec]
        | some cf =>
          obtain ⟨code, fp⟩ := cf
          by_cases hq : code = ['?', '?']
          · subst hq
            rw [parseStatusLines_untracked oracle hb hm rest, hrec]
          · cases hU : code.contains 'U' with
            | true => exact parseStatusLines_unmerged oracle hb hm hq hU rest
            | false =>
              rw [parseStatusLines_push oracle hb hm hq hU rest, hrec,
                pushRecord_error]

/-- C9: a matched status line whose token contains the unmerged letter is
fatal — parsing any input containing such a line yields exit code 1, so
no partial record list is returned; moreover the parse result of
`pre ++ [unmerged line] ++ post` does not depend on `post`: the lines
after the unmerged line are never processed. -/
theorem unmerged_fatal_spec :
    (∀ (oracle : String → Option String) (statusOutput : String),
      (∃ line ∈ splitLines statusOutput.data, isUnmergedLine line = true) →
      parseGitStatusOutput oracle statusOutput = .error 1) ∧
    (∀ (oracle : String → Option String) (pre : List (List Char))
      (u : List Char) (post post' : List (List Char)),
      isUnmergedLine u = true →
      parseStatusLines oracle (pre ++ u :: post) =
        parseStatusLines oracle (pre ++ u :: post')) := by
  constructor
  · intro oracle statusOutput h
    exact parse_lines_error_of_unmerged oracle _ h
  · intro oracle pre u post post' hu
    rw [parse_lines_error_of_unmerged oracle (pre ++ u :: post)
        ⟨u, List.mem_append_right pre (List.mem_cons_self u post), hu⟩,
      parse_lines_error_of_unmerged oracle (pre ++ u :: post')
        ⟨u, List.mem_append_right pre (List.mem_cons_self u post'), hu⟩]

/-- Closed witness for the C9 theorem: a concrete conflicted input exits
with code 1, and a concrete suffix swap after the unmerged line leaves
the result unchanged. -/
theorem unmerged_fatal_spec_witness :
    parseGitStatusOutput (fun _ => none) "M  a.txt\nUU conflict.txt\nA  b.txt" =
      .error 1 ∧
    parseStatusLines (fun _ => none)
        ([] ++ ("UU c.txt".data) :: [("A  b.txt".data)]) =
      parseStatusLines (fun _ => none) ([] ++ ("UU c.txt".data) :: []) :=
  ⟨unmerged_fatal_spec.1 (fun _ => none) "M  a.txt\nUU conflict.txt\nA  b.txt"
      ⟨"UU conflict.txt".data, by decide, by decide⟩,
    unmerged_fatal_spec.2 (fun _ => none) [] ("UU c.txt".data)
      [("A  b.txt".data)] [] (by decide)⟩

theorem splitLines_ne_nil : ∀ l : List Char, splitLines l ≠ [] := by
  intro l
  induction l with
  | nil => simp [splitLines]
  | cons c rest ih =>
    simp only [splitLines]
    split
    · exact List.cons_ne_nil _ _
    · exact List.cons_ne_nil _ _

theorem splitLines_chars : ∀ (l : List Char), ∀ piece ∈ splitLines l,
    ∀ c ∈ piece, c ∈ l := by
  intro l
  induction l with
  | nil =>
    intro piece hp c hc
    simp [splitLines] at hp
    subst hp
    exact absurd hc (List.not_mem_nil c)
  | cons x rest ih =>
    intro piece hp c hc
    cases hr : splitLines rest with
    | nil => exact absurd hr (splitLines_ne_nil rest)
    | cons rh rt =>
      simp only [splitLines, hr] at hp
      by_cases hx : x = '\n'
      · rw [if_pos hx] at hp
        rcases List.mem_cons.mp hp with rfl | hp
        · exact absurd hc (List.not_mem_nil c)
        · exact List.mem_cons_of_mem x (ih piece (hr ▸ hp) c hc)
      · rw [if_neg hx] at hp
        rcases List.mem_cons.mp hp with rfl | hp
        · rcases List.mem_cons.mp hc with rfl | hc
          · exact List.mem_cons_self c rest
          · exact List.mem_cons_of_mem x
              (ih rh (hr ▸ List.mem_cons_self rh rt) c
                (by simpa using hc))
        · exact List.mem_cons_of_mem x
            (ih piece (hr ▸ List.mem_cons_of_mem rh hp) c hc)

theorem parse_lines_all_blank (oracle : String → Option String) :
    ∀ lines : List (List Char),
      (∀ line ∈ lines, jsTrimList line = []) →
      parseStatusLines oracle lines = .ok ([], []) := by
  intro lines
  induction lines with
  | nil => intro _; rfl
  | cons x rest ih =>
    intro h
    rw [parseStatusLines_blank oracle (h x (List.mem_cons_self x rest)) rest]
    exact ih (fun l hl => h l (List.mem_cons_of_mem x hl))

theorem parse_lines_count (oracle : String → Option String) :
    ∀ lines : List (List Char),
      (∀ line ∈ lines, isUnmergedLine line = false) →
      ∃ l reqs, parseStatusLines oracle lines = .ok (l, reqs) ∧
        l.length = (lines.filter countedLine).length := by
  intro lines
  induction lines with
  | nil => exact fun _ => ⟨[], [], rfl, rfl⟩
  | cons x rest ih =>
    intro h
    rcases ih (fun l hl => h l (List.mem_cons_of_mem x hl)) with
      ⟨l, reqs, hok, hlen⟩
    by_cases hb : jsTrimList x = []
    · have hc : countedLine x = false := by
        simp [countedLine, hb]
      refine ⟨l, reqs, ?_, ?_⟩
      · rw [parseStatusLines_blank oracle hb rest, hok]
      · rw [List.filter_cons_of_neg (by simp [hc]), hlen]
    · have hbe : (jsTrimList x).isEmpty = false := by
        cases hbe : (jsTrimList x).isEmpty with
        | false => rfl
        | true => exact absurd (List.isEmpty_iff.mp hbe) hb
      cases hm : matchStatusLine x with
      | none =>
        have hc : countedLine x = false := by
          simp [countedLine, hm]
        refine ⟨l, reqs, ?_, ?_⟩
        · rw [parseStatusLines_nomatch oracle hb hm rest, hok]
        · rw [List.filter_cons_of_neg (by simp [hc]), hlen]
      | some cf =>
        obtain ⟨code, fp⟩ := cf
        by_cases hq : code = ['?', '?']
        · subst hq
          have hc : countedLine x = false := by
            simp [countedLine, hm]
          refine ⟨l, reqs, ?_, ?_⟩
          · rw [parseStatusLines_untracked oracle hb hm rest, hok]
          · rw [List.filter_cons_of_neg (by simp [hc]), hlen]
        · have hU : code.contains 'U' = false := by
            have hx := h x (List.mem_cons_self x rest)
            rw [isUnmergedLine, hm] at hx
            exact hx
          have hU' : 'U' ∉ code := by
            intro hmem
            rw [ccontains_iff.mpr hmem] at hU
            exact Bool.true_eq_false.mp hU
          have hc : countedLine x = true := by
            simp [countedLine, hm, hbe, hq, hU, hU']
          refine ⟨{ path := String.mk (jsTrimList fp),
                    state := getFileState code,
                    diff :=
                      if getFileState code ≠ FileStateD then
                        oracle
                          (String.mk (handleRenamedFilePath (jsTrimList fp)))
                      else none } :: l,
            (if getFileState code ≠ FileStateD then
                [String.mk (handleRenamedFilePath (jsTrimList fp))]
              else []) ++ reqs, ?_, ?_⟩
          · rw [parseStatusLines_push oracle hb hm hq hU rest, hok,
              pushRecord_ok]
          · rw [List.filter_cons_of_pos hc]
            simp [hlen]

/-- C8: when no line is unmerged, the parser succeeds and returns exactly
one record per non-blank line that matches the status regex and is
neither untracked nor unmerged (unmatched lines are skipped, not fatal);
an input that is empty or all whitespace yields the empty record list
with no error. -/
theorem parse_count_spec (oracle : String → Option String)
    (statusOutput : String)
    (h : ∀ line ∈ splitLines statusOutput.data, isUnmergedLine line = false) :
    (∃ l reqs, parseGitStatusOutput oracle statusOutput = .ok (l, reqs) ∧
      l.length = ((splitLines statusOutput.data).filter countedLine).length) ∧
    ((∀ c ∈ statusOutput.data, isJSWhitespace c = true) →
      parseGitStatusOutput oracle statusOutput = .ok ([], [])) := by
  constructor
  · exact parse_lines_count oracle _ h
  · intro hws
    refine parse_lines_all_blank oracle _ ?_
    intro line hline
    rw [jsTrimList_eq_nil_iff]
    intro c hc
    exact hws c (splitLines_chars statusOutput.data line hline c hc)

/-- Closed witness for the C8 theorem on a four-line input with one
counted line, one unparseable line, one blank line and one untracked
line. -/
theorem parse_count_spec_witness :
    (∃ l reqs,
      parseGitStatusOutput (fun _ => none) "M  a.txt\nX bad\n\n?? u.txt" =
        .ok (l, reqs) ∧
      l.length = ((splitLines ("M  a.txt\nX bad\n\n?? u.txt" : String).data).filter
        countedLine).length) ∧
    ((∀ c ∈ ("M  a.txt\nX bad\n\n?? u.txt" : String).data,
        isJSWhitespace c = true) →
      parseGitStatusOutput (fun _ => none) "M  a.txt\nX bad\n\n?? u.txt" =
        .ok ([], [])) :=
  parse_count_spec (fun _ => none) "M  a.txt\nX bad\n\n?? u.txt" (by decide)

theorem fileStateValue_ne_zero {c : Char} (hm : isMARDU c = true)
    (hu : c ≠ 'U') : fileStateValue c ≠ 0 := by
  rcases isMARDU_chars hm with rfl | rfl | rfl | rfl | rfl
  · decide
  · decide
  · decide
  · decide
  · exact absurd rfl hu

theorem or_ne_zero_left {a b : Nat} (h : a ≠ 0) : a ||| b ≠ 0 := by
  intro h0
  apply h
  apply Nat.eq_of_testBit_eq
  intro i
  rw [Nat.zero_testBit]
  have hbit := congrArg (fun n => n.testBit i) h0
  simp only [Nat.testBit_or, Nat.zero_testBit, Bool.or_eq_false_iff] at hbit
  exact hbit.1

theorem foldl_or_ne_zero :
    ∀ (code : List Char) (acc : Nat), acc ≠ 0 →
      code.foldl (fun acc c => acc ||| fileStateValue c) acc ≠ 0 := by
  intro code
  induction code with
  | nil => exact fun acc h => h
  | cons c cs ih =>
    intro acc h
    rw [List.foldl_cons]
    exact ih _ (or_ne_zero_left h)

theorem getFileState_ne_zero {code : List Char} (hne : code ≠ [])
    (hall : ∀ c ∈ code, isMARDU c = true) (hU : code.contains 'U' = false) :
    getFileState code ≠ 0 := by
  cases code with
  | nil => exact absurd rfl hne
  | cons c cs =>
    rw [getFileState, List.foldl_cons]
    have hcU : c ≠ 'U' := by
      intro hc
      subst hc
      rw [ccontains_iff.mpr (List.mem_cons_self 'U' cs)] at hU
      exact Bool.true_eq_false.mp hU
    have hval : fileStateValue c ≠ 0 :=
      fileStateValue_ne_zero (hall c (List.mem_cons_self c cs)) hcU
    exact foldl_or_ne_zero cs _ (by rw [Nat.zero_or]; exact hval)

theorem parse_lines_records (oracle : String → Option String) :
    ∀ (lines : List (List Char)) (l : List FileChange) (reqs : List String),
      parseStatusLines oracle lines = .ok (l, reqs) →
      (∀ fc ∈ l, fc.state ≠ 0) ∧
      ((∀ line ∈ lines, ∀ code fp, matchStatusLine line = some (code, fp) →
          jsTrimList fp ≠ []) → ∀ fc ∈ l, fc.path ≠ "") := by
  intro lines
  induction lines with
  | nil =>
    intro l reqs h
    rw [parseStatusLines_nil] at h
    injection h with h'
    rw [Prod.mk.injEq] at h'
    obtain ⟨hl, hr⟩ := h'
    subst hl
    exact ⟨fun fc hfc => absurd hfc (List.not_mem_nil fc),
      fun _ fc hfc => absurd hfc (List.not_mem_nil fc)⟩
  | cons x rest ih =>
    intro l reqs h
    by_cases hb : jsTrimList x = []
    · rw [parseStatusLines_blank oracle hb rest] at h
      obtain ⟨h1, h2⟩ := ih l reqs h
      exact ⟨h1,
        fun hws => h2 (fun line hline => hws line (List.mem_cons_of_mem x hline))⟩
    · cases hm : matchStatusLine x with
      | none =>
        rw [parseStatusLines_nomatch oracle hb hm rest] at h
        obtain ⟨h1, h2⟩ := ih l reqs h
        exact ⟨h1,
          fun hws => h2 (fun line hline => hws line (List.mem_cons_of_mem x hline))⟩
      | some cf =>
        obtain ⟨code, fp⟩ := cf
        by_cases hq : code = ['?', '?']
        · subst hq
          rw [parseStatusLines_untracked oracle hb hm rest] at h
          obtain ⟨h1, h2⟩ := ih l reqs h
          exact ⟨h1,
            fun hws => h2 (fun line hline => hws line (List.mem_cons_of_mem x hline))⟩
        · cases hU : code.contains 'U' with
          | true =>
            rw [parseStatusLines_unmerged oracle hb hm hq hU rest] at h
            exact Except.noConfusion h
          | false =>
            rw [parseStatusLines_push oracle hb hm hq hU rest] at h
            cases hrec : parseStatusLines oracle rest with
            | error c =>
              rw [hrec, pushRecord_error] at h
              exact Except.noConfusion h
            | ok pr =>
              obtain ⟨fcs, reqs'⟩ := pr
              rw [hrec, pushRecord_ok] at h
              injection h with h'
              rw [Prod.mk.injEq] at h'
              obtain ⟨hl, hr⟩ := h'
              subst hl
              obtain ⟨hstate, hpath⟩ := ih fcs reqs' hrec
              constructor
              · intro fc hfc
                rcases List.mem_cons.mp hfc with rfl | hfc
                · show getFileState code ≠ 0
                  rcases (matched_facts hm).2 with hcq | ⟨hne, hall⟩
                  · exact absurd hcq hq
                  · exact getFileState_ne_zero hne hall hU
                · exact hstate fc hfc
              · intro hws fc hfc
                rcases List.mem_cons.mp hfc with rfl | hfc
                · show String.mk (jsTrimList fp) ≠ ""
                  intro hemp
                  exact hws x (List.mem_cons_self x rest) code fp hm
                    (congrArg String.data hemp)
                · exact hpath
                    (fun line hline => hws line (List.mem_cons_of_mem x hline))
                    fc hfc

/-- C7 (amended): every record in a successful parse has a non-zero kind
bitset, and — provided every matched line's file field is not
whitespace-only — a non-empty path. As stated the claim is false: a line
such as `M` followed by three spaces matches the status regex with a
whitespace-only file field, producing a record whose path is empty (see
the counterexample theorem). -/
theorem parse_records_invariant (oracle : String → Option String)
    (statusOutput : String) (l : List FileChange) (reqs : List String)
    (h : parseGitStatusOutput oracle statusOutput = .ok (l, reqs)) :
    (∀ fc ∈ l, fc.state ≠ 0) ∧
    ((∀ line ∈ splitLines statusOutput.data, ∀ code fp,
        matchStatusLine line = some (code, fp) → jsTrimList fp ≠ []) →
      ∀ fc ∈ l, fc.path ≠ "") :=
  parse_lines_records oracle (splitLines statusOutput.data) l reqs h

/-- C7 counterexample: on the status text `M` followed by three spaces,
the parser includes a record whose path is the empty string (its kind is
1, and the diff lookup was issued for the empty path). -/
theorem parse_empty_path_counterexample :
    parseGitStatusOutput (fun _ => none) "M   " =
      .ok ([{ path := "", state := 1, diff := none }], [""]) := by rfl

/-- Closed witness for the amended C7 theorem at a concrete one-line
input. -/
theorem parse_records_invariant_witness :
    (∀ fc ∈ [({ path := "a.txt", state := 1, diff := none } : FileChange)],
      fc.state ≠ 0) ∧
    ((∀ line ∈ splitLines ("M  a.txt" : String).data, ∀ code fp,
        matchStatusLine line = some (code, fp) → jsTrimList fp ≠ []) →
      ∀ fc ∈ [({ path := "a.txt", state := 1, diff := none } : FileChange)],
        fc.path ≠ "") :=
  parse_records_invariant (fun _ => none) "M  a.txt"
    [{ path := "a.txt", state := 1, diff := none }] ["a.txt"] (by rfl)

end CommitSplit
